import Mathlib

/-!
Verification development for the scattering repository (structure factor and
van Hove pipelines).  The Python sources are shallowly embedded: pure numeric
code becomes functions over the rationals (and over the reals where the
mathematics is irrational, such as the log-spaced Q grid), exceptions become
an explicit Except value, and the external collaborators named out of scope by
the design document (mdtraj selection and histogramming, scipy integration,
the form-factor tables) become function parameters, exactly as the pipelines
consume them.
-/

namespace Scattering

/-- Model of one topology atom: chemical element symbol, atom name, and atomic
mass, as read from an mdtraj topology by the source. -/
structure Atom where
  symbol : String
  name : String
  mass : ℚ
deriving DecidableEq

/-- Model of a trajectory: the topology atom list (shared by all frames), the
per-frame timestamps, and the per-frame unit-cell volumes.  Coordinates are
not carried: every use of them in the source goes through the external
histogramming collaborator, which the embedding takes as a function
parameter. -/
structure Traj where
  atoms : List Atom
  times : List ℚ
  volumes : List ℚ
deriving DecidableEq

/-! ## Element-pair enumeration

Embeds itertools.combinations_with_replacement(xs, 2) as used by
compute_van_hove (van_hove.py line 88, over the reversed unique-element list)
and itertools.product(elements, repeat=2) as used by structure_factor
(scattering.py line 98). -/

/-- Embedding of itertools.combinations_with_replacement(l, 2): for each
position, the pair of its element with itself and with every later element. -/
def cwr2 {α : Type} : List α → List (α × α)
  | [] => []
  | x :: xs => (x :: xs).map (fun y => (x, y)) ++ cwr2 xs

/-- Embedding of itertools.product(l, repeat=2): the full ordered
cross-product of the list with itself. -/
def product2 {α : Type} (l : List α) : List (α × α) :=
  l.flatMap (fun a => l.map (fun b => (a, b)))

/-- Physical atoms of van_hove.py line 46: atoms whose element mass is
positive. -/
def nPhysical (trj : Traj) : ℕ :=
  (trj.atoms.filter (fun a => decide (0 < a.mass))).length

/-- Unique nonzero-mass element symbols of van_hove.py line 47
(list(set(...)) over the physical atoms; set order is modelled by dedup). -/
def uniqueElements (trj : Traj) : List String :=
  ((trj.atoms.filter (fun a => decide (0 < a.mass))).map Atom.symbol).dedup

/-- Element set of scattering.py line 72: set(a.element for a in top.atoms),
with no mass filter. -/
def sfElements (trj : Traj) : List String :=
  (trj.atoms.map Atom.symbol).dedup

/-- Pair list iterated by compute_van_hove (van_hove.py line 88):
combinations with replacement over the reversed unique-element list. -/
def vanHovePairs (trj : Traj) : List (String × String) :=
  cwr2 (uniqueElements trj).reverse

/-- Pair list iterated by structure_factor (scattering.py line 98): the full
ordered cross-product of the element set. -/
def sfPairs (trj : Traj) : List (String × String) :=
  product2 (sfElements trj)

theorem mem_cwr2 {α : Type} {p : α × α} :
    ∀ {l : List α}, p ∈ cwr2 l → p.1 ∈ l ∧ p.2 ∈ l := by
  intro l
  induction l with
  | nil => simp [cwr2]
  | cons x xs ih =>
    intro hp
    rcases List.mem_append.mp hp with h | h
    · rcases List.mem_map.mp h with ⟨y, hy, rfl⟩
      exact ⟨List.mem_cons_self x xs, hy⟩
    · rcases ih h with ⟨h1, h2⟩
      exact ⟨List.mem_cons_of_mem x h1, List.mem_cons_of_mem x h2⟩

theorem count_map_pair {α : Type} [DecidableEq α] (x a b : α) (l : List α) :
    ((l.map (fun y => (x, y))).count (a, b)) = if a = x then l.count b else 0 := by
  induction l with
  | nil => simp
  | cons c cs ih =>
    by_cases hax : a = x
    · subst hax
      simp [List.count_cons, ih, Prod.mk.injEq]
    · simp [List.count_cons, ih, Prod.mk.injEq, hax]

theorem count_cwr2_self {α : Type} [DecidableEq α] {l : List α} (h : l.Nodup)
    {a : α} (ha : a ∈ l) : (cwr2 l).count (a, a) = 1 := by
  induction l with
  | nil => simp at ha
  | cons x xs ih =>
    have hx : x ∉ xs := (List.nodup_cons.mp h).1
    have hxs : xs.Nodup := (List.nodup_cons.mp h).2
    simp only [cwr2, List.count_append, count_map_pair]
    rcases List.mem_cons.mp ha with rfl | hmem
    · have hnot : (a, a) ∉ cwr2 xs := fun hc => hx (mem_cwr2 hc).1
      simp [List.count_eq_zero.mpr hnot, List.count_cons, List.count_eq_zero.mpr hx]
    · have hax : a ≠ x := fun hc => hx (hc ▸ hmem)
      simp [hax, ih hxs hmem]

theorem count_cwr2_pair {α : Type} [DecidableEq α] {l : List α} (h : l.Nodup)
    {a b : α} (ha : a ∈ l) (hb : b ∈ l) (hab : a ≠ b) :
    (cwr2 l).count (a, b) + (cwr2 l).count (b, a) = 1 := by
  induction l with
  | nil => simp at ha
  | cons x xs ih =>
    have hx : x ∉ xs := (List.nodup_cons.mp h).1
    have hxs : xs.Nodup := (List.nodup_cons.mp h).2
    have e1 : (cwr2 (x :: xs)).count (a, b)
        = (if a = x then (x :: xs).count b else 0) + (cwr2 xs).count (a, b) := by
      simp only [cwr2, List.count_append, count_map_pair]
    have e2 : (cwr2 (x :: xs)).count (b, a)
        = (if b = x then (x :: xs).count a else 0) + (cwr2 xs).count (b, a) := by
      simp only [cwr2, List.count_append, count_map_pair]
    rw [e1, e2]
    rcases List.mem_cons.mp ha with rfl | hamem
    · have hbxs : b ∈ xs := by
        rcases List.mem_cons.mp hb with rfl | hbm
        · exact absurd rfl hab
        · exact hbm
      have hbx : ¬ b = a := fun hc => hab hc.symm
      have c1 : (a :: xs).count b = 1 := by
        simp [List.count_cons, List.count_eq_one_of_mem hxs hbxs, hbx]
      have c2 : (cwr2 xs).count (a, b) = 0 :=
        List.count_eq_zero.mpr fun hc => hx (mem_cwr2 hc).1
      have c3 : (cwr2 xs).count (b, a) = 0 :=
        List.count_eq_zero.mpr fun hc => hx (mem_cwr2 hc).2
      simp [c1, c2, c3, hbx]
    · rcases List.mem_cons.mp hb with rfl | hbmem
      · have hax : ¬ a = b := hab
        have c1 : (b :: xs).count a = 1 := by
          simp [List.count_cons, List.count_eq_one_of_mem hxs hamem, hax]
        have c2 : (cwr2 xs).count (a, b) = 0 :=
          List.count_eq_zero.mpr fun hc => hx (mem_cwr2 hc).2
        have c3 : (cwr2 xs).count (b, a) = 0 :=
          List.count_eq_zero.mpr fun hc => hx (mem_cwr2 hc).1
        simp [c1, c2, c3, hax]
      · have hax : ¬ a = x := fun hc => hx (hc ▸ hamem)
        have hbx : ¬ b = x := fun hc => hx (hc ▸ hbmem)
        rw [if_neg hax, if_neg hbx]
        have := ih hxs hamem hbmem
        omega

theorem count_product2 {α : Type} [DecidableEq α] {l : List α} (h : l.Nodup)
    {a b : α} (ha : a ∈ l) (hb : b ∈ l) :
    (product2 l).count (a, b) = 1 := by
  have key : ∀ l1 : List α, ((l1.flatMap (fun x => l.map (fun y => (x, y)))).count (a, b))
      = l1.count a * l.count b := by
    intro l1
    induction l1 with
    | nil => simp
    | cons c cs ih =>
      rw [List.flatMap_cons, List.count_append, count_map_pair, ih, List.count_cons]
      by_cases hca : a = c
      · simp only [if_pos hca, hca, beq_self_eq_true, if_true]
        ring
      · simp only [if_neg hca, List.count_cons]
        have hcab : ¬ c = a := fun hc => hca hc.symm
        simp [hcab]
  unfold product2
  rw [key, List.count_eq_one_of_mem h ha, List.count_eq_one_of_mem h hb]

/-- C2: compute_van_hove enumerates element pairs as unordered
combinations-with-replacement over the nonzero-mass element set, each
unordered pair contributing exactly once (a self pair appears once; for
distinct elements exactly one of the two orders appears), while
structure_factor enumerates the full ordered cross-product, every ordered
pair, self pairs included, exactly once. -/
theorem C2_pair_enumeration (trj : Traj) (a b c d : String)
    (ha : a ∈ uniqueElements trj) (hb : b ∈ uniqueElements trj)
    (hc : c ∈ sfElements trj) (hd : d ∈ sfElements trj) :
    ((a = b → (vanHovePairs trj).count (a, b) = 1) ∧
      (a ≠ b → (vanHovePairs trj).count (a, b) + (vanHovePairs trj).count (b, a) = 1)) ∧
    (sfPairs trj).count (c, d) = 1 := by
  have hnd : (uniqueElements trj).reverse.Nodup :=
    List.nodup_reverse.mpr (List.nodup_dedup _)
  have ha' : a ∈ (uniqueElements trj).reverse := List.mem_reverse.mpr ha
  have hb' : b ∈ (uniqueElements trj).reverse := List.mem_reverse.mpr hb
  refine ⟨⟨fun hab => ?_, fun hab => ?_⟩, ?_⟩
  · subst hab
    exact count_cwr2_self hnd ha'
  · exact count_cwr2_pair hnd ha' hb' hab
  · exact count_product2 (List.nodup_dedup _) hc hd

/-- Concrete two-element trajectory used to instantiate pair-enumeration
facts. -/
def trjCO : Traj :=
  { atoms := [⟨"C", "C1", 12⟩, ⟨"O", "O1", 16⟩], times := [0, 1], volumes := [1, 1] }

theorem C2_pair_enumeration_witness :
    ("C" ∈ uniqueElements trjCO ∧ "O" ∈ uniqueElements trjCO ∧
      "C" ∈ sfElements trjCO ∧ "O" ∈ sfElements trjCO) ∧
    ((("C" : String) = "O" → (vanHovePairs trjCO).count ("C", "O") = 1) ∧
      (("C" : String) ≠ "O" →
        (vanHovePairs trjCO).count ("C", "O") + (vanHovePairs trjCO).count ("O", "C") = 1)) ∧
    (sfPairs trjCO).count ("C", "O") = 1 :=
  ⟨by decide,
    C2_pair_enumeration trjCO "C" "O" "C" "O" (by decide) (by decide) (by decide) (by decide)⟩

/-! ## Matrices as lists of rows, and the numpy operations the pipelines use -/

/-- Pointwise sum of two histogram matrices (numpy array addition; all arrays
in one computation share one shape). -/
def matAdd (m1 m2 : List (List ℚ)) : List (List ℚ) :=
  List.zipWith (List.zipWith (· + ·)) m1 m2

/-- Apply a scalar function to every entry of a matrix. -/
def matMap (f : ℚ → ℚ) (m : List (List ℚ)) : List (List ℚ) :=
  m.map (List.map f)

/-- Multiplication of a matrix by a scalar on the right, as val * coeff in
van_hove.py line 118. -/
def matScale (c : ℚ) (m : List (List ℚ)) : List (List ℚ) :=
  matMap (fun x => x * c) m

/-- Embedding of numpy.zeros_like. -/
def matZeroLike (m : List (List ℚ)) : List (List ℚ) :=
  matMap (fun _ => 0) m

/-- Keep every step-th element of a list, starting at the head. -/
def everyNthAux {α : Type} (step : ℕ) : List α → ℕ → List α
  | [], _ => []
  | x :: xs, 0 => x :: everyNthAux step xs (step - 1)
  | _ :: xs, c + 1 => everyNthAux step xs c

/-- Embedding of the numpy strided slice l[start::step]. -/
def sliceStep {α : Type} (l : List α) (start step : ℕ) : List α :=
  everyNthAux step (l.drop start) 0

/-- Column-wise sum of a list of rows (all rows of one shape). -/
def sumCols : List (List ℚ) → List ℚ
  | [] => []
  | [r] => r
  | r :: rs => List.zipWith (· + ·) r (sumCols rs)

/-- Embedding of numpy.mean(rows, axis=0): column-wise sum divided by the
number of rows. -/
def meanCols (rows : List (List ℚ)) : List ℚ :=
  (sumCols rows).map (fun x => x / (rows.length : ℚ))

/-- The reshape loop of compute_van_hove (van_hove.py lines 123 to 125):
g_r_t_final[i] = numpy.mean(g_r_t[i::chunk_length], axis=0) for i below
chunk_length. -/
def vanHoveReshape (chunk_length : ℕ) (g : List (List ℚ)) : List (List ℚ) :=
  (List.range chunk_length).map (fun i => meanCols (sliceStep g i chunk_length))

/-! ## get_dt (utils/utils.py lines 23 to 31) -/

/-- Errors raised by the van Hove pipeline.  userWarningMultipleElements is
the raise UserWarning of van_hove.py line 180, inconsistentDt the ValueError
of utils.py line 27, indexError the dt[0] of an empty unique array,
zeroDivisionError the n_frames / 0, and nameError the unbound r when the
chunk loop (or the pair loop) never ran. -/
inductive PVHError
  | userWarningMultipleElements
  | inconsistentDt
  | indexError
  | zeroDivisionError
  | nameError
deriving DecidableEq

/-- Consecutive differences, numpy.diff. -/
def diffs : List ℚ → List ℚ
  | a :: b :: rest => (b - a) :: diffs (b :: rest)
  | _ => []

/-- Round to the nearest integer, ties to the even integer, as numpy.round
does. -/
def roundHalfEven (q : ℚ) : ℤ :=
  if q - Int.floor q < 1 / 2 then Int.floor q
  else if 1 / 2 < q - Int.floor q then Int.floor q + 1
  else if Int.floor q % 2 = 0 then Int.floor q else Int.floor q + 1

/-- Embedding of numpy.round(x, 3). -/
def np_round3 (q : ℚ) : ℚ :=
  (roundHalfEven (q * 1000) : ℚ) / 1000

/-- Embedding of get_dt: the unique values (dedup; numpy.unique also sorts,
which neither the length test nor the single-value read depends on) of the
frame-time differences rounded to three decimals; more than one value is the
inconsistent-dt ValueError, none is the IndexError of dt[0]. -/
def get_dt (times : List ℚ) : Except PVHError ℚ :=
  match ((diffs times).map np_round3).dedup with
  | [] => .error .indexError
  | [d] => .ok d
  | _ :: _ :: _ => .error .inconsistentDt

/-! ## compute_partial_van_hove (van_hove.py lines 141 to 216)

The mdtraj externals are parameters: a selection is already resolved to the
list of its atom indices (trj.top.select), and md.compute_rdf_t is a function
hist from a time pair (reference frame, offset frame) to the histogram row it
contributes, one row per entry of the times list it is called with, following
the design contract for the pairwise histogramming collaborator. -/

/-- Element symbols seen by a resolved selection, deduplicated: the
set(a.element for a in trj.atom_slice(...).top.atoms) of van_hove.py
lines 174 to 177. -/
def elementsOfSelection (trj : Traj) (sel : List ℕ) : List String :=
  ((sel.filterMap (fun i => trj.atoms.get? i)).map Atom.symbol).dedup

/-- Indices of the atoms a selection string of the form element X resolves
to. -/
def selectElement (trj : Traj) (e : String) : List ℕ :=
  ((trj.atoms.enum.filter (fun p => p.2.symbol == e)).map Prod.fst)

/-- The time pairs handed to md.compute_rdf_t for chunk i (van_hove.py
lines 196 to 198): reference frame chunk_length * i against offset frames
chunk_length * i + j for j below chunk_length. -/
def chunkTimes (chunk_length i : ℕ) : List (ℕ × ℕ) :=
  (List.range chunk_length).map (fun j => (chunk_length * i, chunk_length * i + j))

/-- Contract of the external md.compute_rdf_t: one histogram row per
requested time pair. -/
def compute_rdf_t (hist : ℕ → ℕ → List ℚ) (times : List (ℕ × ℕ)) : List (List ℚ) :=
  times.map (fun p => hist p.1 p.2)

/-- Embedding of compute_partial_van_hove: warn (by raising) on a
multi-element selection, check dt, then sum the per-chunk histogram matrices
over n_chunks = n_frames / chunk_length chunks, starting from
numpy.zeros_like of the first; the running sum is returned, with no division
by the number of chunks. -/
def compute_partial_van_hove (trj : Traj) (hist : ℕ → ℕ → List ℚ)
    (chunk_length : ℕ) (sel1 sel2 : List ℕ) : Except PVHError (List (List ℚ)) :=
  if 1 < (elementsOfSelection trj sel1).length ∨ 1 < (elementsOfSelection trj sel2).length then
    .error .userWarningMultipleElements
  else match get_dt trj.times with
  | .error e => .error e
  | .ok _ =>
    if chunk_length = 0 then .error .zeroDivisionError
    else match (List.range (trj.times.length / chunk_length)).map
        (fun i => compute_rdf_t hist (chunkTimes chunk_length i)) with
      | [] => .error .nameError
      | m :: ms => .ok (ms.foldl matAdd (matAdd (matZeroLike m) m))

/-- Uniform frame spacing, as the claims state it: all consecutive time
differences are equal. -/
def constantDt (times : List ℚ) : Prop :=
  ∀ d1 ∈ diffs times, ∀ d2 ∈ diffs times, d1 = d2

instance (times : List ℚ) : Decidable (constantDt times) := by
  unfold constantDt
  infer_instance

/-! ## C5: the multiple-element check is a raise, not a soft warning -/

/-- Two-element trajectory with a selection spanning both elements. -/
def trjMixedSel : Traj :=
  { atoms := [⟨"C", "C1", 12⟩, ⟨"O", "O1", 16⟩], times := [0, 1], volumes := [1, 1] }

/-- Decides whether a partial van Hove run returned a result. -/
def pvhReturned : Except PVHError (List (List ℚ)) → Bool
  | .ok _ => true
  | .error _ => false

/-- C5 counterexample: on a selection spanning two elements the source does
not proceed: raise UserWarning aborts compute_partial_van_hove, so no result
is returned. -/
theorem C5_counterexample :
    compute_partial_van_hove trjMixedSel (fun _ _ => [1]) 1 [0, 1] [0, 1]
      = .error .userWarningMultipleElements ∧
    pvhReturned (compute_partial_van_hove trjMixedSel (fun _ _ => [1]) 1 [0, 1] [0, 1])
      = false := by
  constructor <;> rfl

/-- C5 amended: a selection resolving to more than one distinct element makes
compute_partial_van_hove abort with the raised UserWarning before any
computation; it does not proceed to return a result. -/
theorem C5_amended (trj : Traj) (hist : ℕ → ℕ → List ℚ) (chunk_length : ℕ)
    (sel1 sel2 : List ℕ)
    (h : 1 < (elementsOfSelection trj sel1).length ∨
      1 < (elementsOfSelection trj sel2).length) :
    compute_partial_van_hove trj hist chunk_length sel1 sel2
      = .error .userWarningMultipleElements := by
  unfold compute_partial_van_hove
  rw [if_pos h]

theorem C5_amended_witness :
    (1 < (elementsOfSelection trjMixedSel [0, 1]).length ∨
      1 < (elementsOfSelection trjMixedSel [0, 1]).length) ∧
    compute_partial_van_hove trjMixedSel (fun _ _ => [2]) 2 [0, 1] [0, 1]
      = .error .userWarningMultipleElements :=
  ⟨by decide, C5_amended trjMixedSel (fun _ _ => [2]) 2 [0, 1] [0, 1] (by decide)⟩

/-! ## C7: the timestep check sees only differences rounded to 3 decimals -/

theorem dedup_length_le_one_of_allEq {α : Type} [DecidableEq α] :
    ∀ {l : List α}, (∀ x ∈ l, ∀ y ∈ l, x = y) → l.dedup.length ≤ 1 := by
  intro l
  induction l with
  | nil => simp
  | cons a t ih =>
    intro h
    by_cases hmem : a ∈ t
    · rw [List.dedup_cons_of_mem hmem]
      exact ih fun x hx y hy =>
        h x (List.mem_cons_of_mem a hx) y (List.mem_cons_of_mem a hy)
    · have ht : t = [] := by
        by_contra hne
        rcases List.exists_mem_of_ne_nil t hne with ⟨x, hx⟩
        have : x = a := h x (List.mem_cons_of_mem a hx) a (List.mem_cons_self a t)
        exact hmem (this ▸ hx)
      subst ht
      simp

/-- Single-element trajectory whose frame times are nonuniform by less than
the 1e-3 rounding resolution of get_dt: differences 1/10000 and 2/10000 both
round to 0. -/
def trjRound : Traj :=
  { atoms := [⟨"O", "O1", 16⟩], times := [0, 1 / 10000, 3 / 10000], volumes := [1, 1, 1] }

/-- C7 counterexample: this trajectory has a non-constant timestep, yet
compute_partial_van_hove does not fail: both differences round to 0.000, so
the inconsistent-dt check passes and a result is returned. -/
theorem C7_counterexample :
    ¬ constantDt trjRound.times ∧
    compute_partial_van_hove trjRound (fun _ _ => [0]) 1 [0] [0] = .ok [[0]] := by
  have hd : diffs trjRound.times = [1 / 10000, 2 / 10000] := by
    norm_num [trjRound, diffs]
  constructor
  · intro h
    have h12 := h (1 / 10000) (by rw [hd]; exact List.mem_cons_self _ _)
      (2 / 10000) (by rw [hd]; simp)
    norm_num at h12
  · norm_num [compute_partial_van_hove, trjRound, diffs, np_round3, roundHalfEven,
      get_dt, elementsOfSelection, chunkTimes, compute_rdf_t, matAdd, matZeroLike, matMap,
      List.range_succ, List.filterMap_cons, List.getElem?_cons_zero]

/-- C7 amended: compute_partial_van_hove raises the inconsistent-timestep
error exactly when the consecutive frame-time differences rounded to three
decimals take more than one distinct value (and the selection check before it
passed); spacing variation below the rounding resolution is not detected, and
on a trajectory with uniform spacing this error is never raised. -/
theorem C7_amended (trj : Traj) (hist : ℕ → ℕ → List ℚ) (chunk_length : ℕ)
    (sel1 sel2 : List ℕ)
    (hsel : ¬(1 < (elementsOfSelection trj sel1).length ∨
      1 < (elementsOfSelection trj sel2).length)) :
    (1 < ((diffs trj.times).map np_round3).dedup.length →
      compute_partial_van_hove trj hist chunk_length sel1 sel2 = .error .inconsistentDt) ∧
    (constantDt trj.times →
      compute_partial_van_hove trj hist chunk_length sel1 sel2 ≠ .error .inconsistentDt) := by
  constructor
  · intro hlen
    unfold compute_partial_van_hove
    rw [if_neg hsel]
    unfold get_dt
    match hd : ((diffs trj.times).map np_round3).dedup with
    | [] => rw [hd] at hlen; simp at hlen
    | [d] => rw [hd] at hlen; simp at hlen
    | _ :: _ :: _ => rfl
  · intro hconst
    have hle : ((diffs trj.times).map np_round3).dedup.length ≤ 1 := by
      apply dedup_length_le_one_of_allEq
      intro x hx y hy
      rcases List.mem_map.mp hx with ⟨dx, hdx, rfl⟩
      rcases List.mem_map.mp hy with ⟨dy, hdy, rfl⟩
      rw [hconst dx hdx dy hdy]
    unfold compute_partial_van_hove
    by_cases hamb : 1 < (elementsOfSelection trj sel1).length ∨
        1 < (elementsOfSelection trj sel2).length
    · rw [if_pos hamb]; intro hc; cases hc
    · rw [if_neg hamb]
      unfold get_dt
      match hd : ((diffs trj.times).map np_round3).dedup with
      | [] => intro hc; cases hc
      | [d] =>
        by_cases hz : chunk_length = 0
        · rw [if_pos hz]; intro hc; cases hc
        · rw [if_neg hz]
          match (List.range (trj.times.length / chunk_length)).map
              (fun i => compute_rdf_t hist (chunkTimes chunk_length i)) with
          | [] => intro hc; cases hc
          | m :: ms => intro hc; cases hc
      | d1 :: d2 :: ds => rw [hd] at hle; simp at hle

theorem C7_amended_witness :
    ¬(1 < (elementsOfSelection trjCO [0]).length ∨
      1 < (elementsOfSelection trjCO [0]).length) ∧
    constantDt trjCO.times ∧
    compute_partial_van_hove trjCO (fun _ _ => [5]) 1 [0] [0] ≠ .error .inconsistentDt :=
  ⟨by decide, by norm_num [constantDt, trjCO, diffs],
    (C7_amended trjCO (fun _ _ => [5]) 1 [0] [0] (by decide)).2
      (by norm_num [constantDt, trjCO, diffs])⟩

/-! ## compute_van_hove (van_hove.py lines 13 to 131, sequential branch)

The per-pair histogramming external is a parameter keyed by the element pair
(it stands for md.compute_rdf_t called with that pair's select_pairs result),
and get_form_factor — repository code outside the embedded sources — is a
parameter ffq0 from element symbol to its Q-independent form factor (the
water flag is absorbed into the parameter). -/

/-- Number of atoms a selection string element X resolves to
(trj.atom_slice(trj.top.select(...)).n_atoms of van_hove.py lines 110
and 111). -/
def countElem (trj : Traj) (e : String) : ℕ :=
  (trj.atoms.filter (fun a => a.symbol == e)).length

/-- Concentration of one element: matching atoms over physical atoms
(van_hove.py lines 110 and 111). -/
def conc (trj : Traj) (s : String) : ℚ :=
  (countElem trj s : ℚ) / (nPhysical trj : ℚ)

/-- The sequential pair loop of compute_van_hove (van_hove.py lines 88 to
100): one compute_partial_van_hove call per element pair, in pair order, the
first raised error aborting the whole computation. -/
def buildDict (trj : Traj) (hist : String × String → ℕ → ℕ → List ℚ) (chunk_length : ℕ) :
    List (String × String) → Except PVHError (List ((String × String) × List (List ℚ)))
  | [] => .ok []
  | pr :: rest =>
    match compute_partial_van_hove trj (hist pr) chunk_length
        (selectElement trj pr.1) (selectElement trj pr.2) with
    | .error e => .error e
    | .ok m =>
      match buildDict trj hist chunk_length rest with
      | .error e => .error e
      | .ok d => .ok ((pr, m) :: d)

/-- The mixing loop of van_hove.py lines 108 to 120: accumulate
coeff-weighted partials and the sum of the coefficients, with
coeff = f1 * x1 * f2 * x2. -/
def mixLoop (trj : Traj) (ffq0 : String → ℚ) :
    List ((String × String) × List (List ℚ)) → List (List ℚ) → ℚ → List (List ℚ) × ℚ
  | [], g, norm => (g, norm)
  | ((s1, s2), val) :: rest, g, norm =>
    mixLoop trj ffq0 rest
      (matAdd g (matScale (ffq0 s1 * conc trj s1 * ffq0 s2 * conc trj s2) val))
      (norm + ffq0 s1 * conc trj s1 * ffq0 s2 * conc trj s2)

/-- Embedding of compute_van_hove (sequential branch, partial=False): build
the per-pair dictionary, mix with form-factor and concentration weights
(g_r_t starting as zeros_like of the first value), reshape by time offset,
divide by the summed coefficients, and return the chunk time axis with the
final matrix.  An empty pair set leaves r unbound in the source, hence
nameError. -/
def compute_van_hove (trj : Traj) (hist : String × String → ℕ → ℕ → List ℚ)
    (ffq0 : String → ℚ) (chunk_length : ℕ) :
    Except PVHError (List ℚ × List (List ℚ)) :=
  match buildDict trj hist chunk_length (vanHovePairs trj) with
  | .error e => .error e
  | .ok [] => .error .nameError
  | .ok (d0 :: ds) =>
    let gn := mixLoop trj ffq0 (d0 :: ds) (matZeroLike d0.2) 0
    .ok (trj.times.take chunk_length,
      matMap (fun x => x / gn.2) (vanHoveReshape chunk_length gn.1))

/-! ## C1: the reshape does not divide by the number of chunks -/

/-- Modelled from the spec (section 4.3 numerical detail and section 4.6 step
5): after iterating all chunks the final result is reshaped by time offset,
final[j] = mean over all n_chunks = floor(n_frames / chunk_length) chunks of
that chunk's lag-j pairwise histogram contribution, that is, the summed
per-chunk contributions divided by n_chunks. -/
def specChunkAverage (hist : ℕ → ℕ → List ℚ) (n_frames chunk_length : ℕ) : List (List ℚ) :=
  matMap (fun x => x / ((n_frames / chunk_length : ℕ) : ℚ))
    (match (List.range (n_frames / chunk_length)).map
        (fun i => compute_rdf_t hist (chunkTimes chunk_length i)) with
      | [] => []
      | m :: ms => ms.foldl matAdd m)

/-- Single-element, single-atom trajectory with two frames, so two chunks of
length one. -/
def trjO : Traj :=
  { atoms := [⟨"O", "O1", 16⟩], times := [0, 1], volumes := [1, 1] }

/-- C1 evaluation at the failing input: with two chunks each contributing the
histogram row [1] at lag 0, the pipeline returns the per-chunk sum [2] at lag
0 (the strided reshape over a chunk_length-row array is a no-op and nothing
divides by n_chunks), while the specified mean over chunks is [1]. -/
theorem C1_code_bug :
    compute_van_hove trjO (fun _ _ _ => [1]) (fun _ => 1) 1 = .ok ([0], [[2]]) ∧
    specChunkAverage (fun _ _ => [1]) 2 1 = [[1]] ∧
    ([[(2 : ℚ)]] : List (List ℚ)) ≠ [[(1 : ℚ)]] := by
  have hpairs : vanHovePairs trjO = [("O", "O")] := by decide
  have hpartial : compute_partial_van_hove trjO (fun _ _ => [1]) 1
      (selectElement trjO "O") (selectElement trjO "O") = .ok [[2]] := by
    norm_num [compute_partial_van_hove, trjO, diffs, np_round3, roundHalfEven, get_dt,
      elementsOfSelection, selectElement, chunkTimes, compute_rdf_t, matAdd, matZeroLike,
      matMap, List.range_succ, List.filterMap_cons, List.getElem?_cons_zero]
  have hdict : buildDict trjO (fun _ _ _ => [1]) 1 (vanHovePairs trjO)
      = .ok [(("O", "O"), [[2]])] := by
    rw [hpairs]
    simp only [buildDict, hpartial]
  have hconc : conc trjO "O" = 1 := by
    have h1 : countElem trjO "O" = 1 := by decide
    have h2 : nPhysical trjO = 1 := by decide
    rw [conc, h1, h2]
    norm_num
  refine ⟨?_, by norm_num [specChunkAverage, compute_rdf_t, chunkTimes, List.range_succ,
    matAdd, matMap], by norm_num⟩
  rw [compute_van_hove, hdict]
  simp only [mixLoop, hconc]
  norm_num [matAdd, matScale, matMap, matZeroLike, vanHoveReshape, sliceStep, everyNthAux,
    meanCols, sumCols, List.range_succ, trjO]

/-! ## rdf_by_frame (utils/utils.py lines 7 to 20)

The external md.compute_rdf on a single frame (with the keyword arguments it
was called with) is the parameter rdf1; a frame can be any type, since the
source only hands frames to the collaborator. -/

/-- One iteration of the rdf_by_frame loop: keep the radial axis of the
current frame, start the accumulator at zeros_like on the first frame, and
add the frame histogram. -/
def rdfStep {F : Type} (rdf1 : F → List ℚ × List ℚ)
    (acc : Option (List ℚ × List ℚ)) (f : F) : Option (List ℚ × List ℚ) :=
  match acc with
  | none => some ((rdf1 f).1,
      List.zipWith (· + ·) ((rdf1 f).2.map (fun _ => 0)) (rdf1 f).2)
  | some rg => some ((rdf1 f).1, List.zipWith (· + ·) rg.2 (rdf1 f).2)

/-- Embedding of rdf_by_frame: fold the per-frame histograms, then divide by
the number of frames; an empty trajectory leaves r unbound (None result
standing for the NameError). -/
def rdf_by_frame {F : Type} (rdf1 : F → List ℚ × List ℚ) (frames : List F) :
    Option (List ℚ × List ℚ) :=
  match frames.foldl (rdfStep rdf1) none with
  | none => none
  | some rg => some (rg.1, rg.2.map (fun x => x / (frames.length : ℚ)))

theorem zipWith_add_map_zero (g : List ℚ) :
    List.zipWith (· + ·) (g.map (fun _ => (0 : ℚ))) g = g := by
  induction g with
  | nil => rfl
  | cons x xs ih => simp only [List.map_cons, List.zipWith_cons_cons, ih, zero_add]

theorem zipWith_add_map_mul (c : ℚ) (g : List ℚ) :
    List.zipWith (· + ·) (g.map (fun x => x * c)) g = g.map (fun x => x * (c + 1)) := by
  induction g with
  | nil => rfl
  | cons x xs ih =>
    simp only [List.map_cons, List.zipWith_cons_cons, ih]
    congr 1
    ring

theorem rdfStep_replicate {F : Type} (rdf1 : F → List ℚ × List ℚ) (f : F) :
    ∀ (k : ℕ) (c : ℚ) (r : List ℚ),
      (List.replicate k f).foldl (rdfStep rdf1) (some (r, (rdf1 f).2.map (fun x => x * c)))
        = some ((if k = 0 then r else (rdf1 f).1),
            (rdf1 f).2.map (fun x => x * (c + (k : ℚ)))) := by
  intro k
  induction k with
  | zero => intro c r; simp
  | succ n ih =>
    intro c r
    rw [List.replicate_succ, List.foldl_cons]
    have hstep : rdfStep rdf1 (some (r, (rdf1 f).2.map (fun x => x * c))) f
        = some ((rdf1 f).1, (rdf1 f).2.map (fun x => x * (c + 1))) := by
      simp [rdfStep, zipWith_add_map_mul]
    rw [hstep, ih (c + 1) _]
    have hfun : (fun x : ℚ => x * (c + 1 + (n : ℚ))) = fun x : ℚ => x * (c + ((n : ℚ) + 1)) := by
      funext x; ring
    simp [hfun, Nat.cast_succ]

/-- C9: on a trajectory of N identical copies of one frame, rdf_by_frame
returns exactly the single-frame RDF: the radial axis of that frame and the
N-fold sum divided by N. -/
theorem C9_rdf_by_frame_replicate {F : Type} (rdf1 : F → List ℚ × List ℚ) (f : F)
    (N : ℕ) (hN : 1 ≤ N) :
    rdf_by_frame rdf1 (List.replicate N f) = some (rdf1 f) := by
  obtain ⟨k, rfl⟩ : ∃ k, N = k + 1 := ⟨N - 1, by omega⟩
  have h0 : rdfStep rdf1 none f = some ((rdf1 f).1, (rdf1 f).2.map (fun x => x * 1)) := by
    simp only [rdfStep, zipWith_add_map_zero]
    congr 1
    simp
  have hfold : (List.replicate (k + 1) f).foldl (rdfStep rdf1) none
      = some ((rdf1 f).1, (rdf1 f).2.map (fun x => x * (1 + (k : ℚ)))) := by
    rw [List.replicate_succ, List.foldl_cons, h0, rdfStep_replicate rdf1 f k 1 _]
    simp
  rw [rdf_by_frame, hfold]
  have hne : (1 : ℚ) + (k : ℚ) ≠ 0 := by positivity
  have hcast : (((List.replicate (k + 1) f).length : ℕ) : ℚ) = 1 + (k : ℚ) := by
    simp [List.length_replicate]
    ring
  rw [hcast]
  simp only [List.map_map]
  have hid : ((fun x : ℚ => x / (1 + (k : ℚ))) ∘ fun x : ℚ => x * (1 + (k : ℚ)))
      = fun x : ℚ => x := by
    funext x
    simp [Function.comp, mul_div_cancel_right₀ x hne]
  rw [hid]
  simp

theorem C9_rdf_by_frame_replicate_witness :
    1 ≤ 2 ∧
    rdf_by_frame (fun _ : Unit => ([1, 2], [3, 4])) (List.replicate 2 ())
      = some ([1, 2], [3, 4]) :=
  ⟨by decide, C9_rdf_by_frame_replicate (fun _ : Unit => ([1, 2], [3, 4])) () 2 (by decide)⟩

/-! ## vhf_from_pvhf (van_hove.py lines 275 to 326) -/

/-- Errors of vhf_from_pvhf: indexError for atoms[0] on an empty topology,
keyError for the partial_dict[...] lookup of line 299, valueKeyFormat for a
key that does not split into exactly two tokens (line 305), valueUnknownAtom
for a token that is no element symbol of the trajectory (line 310). -/
inductive VhfError
  | indexError
  | keyError (k : String)
  | valueKeyFormat
  | valueUnknownAtom
deriving DecidableEq

/-- Embedding of the Python key.split with separator "-": split the character
list on the dash. -/
def splitDash (s : String) : List String :=
  (s.toList.splitOn (Char.ofNat 45)).map (fun cs => String.mk cs)

/-- Dictionary lookup in an association list (Python dicts keep insertion
order; lookup finds the entry of the key). -/
def lookupKey (pd : List (String × List (List ℚ))) (k : String) :
    Option (List (List ℚ)) :=
  (pd.find? (fun kv => kv.1 == k)).map Prod.snd

/-- Number of atoms whose name matches, the
len(trj.topology.select(name ...)) of van_hove.py lines 315 and 316. -/
def countName (trj : Traj) (s : String) : ℕ :=
  (trj.atoms.filter (fun a => a.name == s)).length

/-- The key loop of vhf_from_pvhf (van_hove.py lines 301 to 320): per key,
validate the token count, then each token against the element symbols, then
accumulate coeff * partial and the coefficient sum. -/
def vhfLoop (ff : String → ℚ) (trj : Traj) (atoms : List String) :
    List (String × List (List ℚ)) → List (List ℚ) → ℚ →
      Except VhfError (List (List ℚ) × ℚ)
  | [], tot, norm => .ok (tot, norm)
  | (key, mat) :: rest, tot, norm =>
    match splitDash key with
    | [a1, a2] =>
      if a1 ∈ atoms then
        if a2 ∈ atoms then
          vhfLoop ff trj atoms rest
            (matAdd tot (matScale (ff a1 * ff a2
              * ((countName trj a1 : ℚ) / (trj.atoms.length : ℚ))
              * ((countName trj a2 : ℚ) / (trj.atoms.length : ℚ))) mat))
            (norm + ff a1 * ff a2
              * ((countName trj a1 : ℚ) / (trj.atoms.length : ℚ))
              * ((countName trj a2 : ℚ) / (trj.atoms.length : ℚ)))
        else .error .valueUnknownAtom
      else .error .valueUnknownAtom
    | _ => .error .valueKeyFormat

/-- Embedding of vhf_from_pvhf.  Before any key is validated, line 299 builds
the zeros accumulator from partial_dict[atoms[0]-atoms[0]], so a missing
self-pair key of the first atom is a KeyError; afterwards the keys are
validated and mixed in order, and the total is divided by the coefficient
sum. -/
def vhf_from_pvhf (ff : String → ℚ) (trj : Traj)
    (pd : List (String × List (List ℚ))) : Except VhfError (List (List ℚ)) :=
  match trj.atoms.map Atom.symbol with
  | [] => .error .indexError
  | a0 :: rest =>
    match lookupKey pd (a0 ++ "-" ++ a0) with
    | none => .error (.keyError (a0 ++ "-" ++ a0))
    | some m0 =>
      match vhfLoop ff trj (a0 :: rest) pd (matZeroLike m0) 0 with
      | .error e => .error e
      | .ok tn => .ok (matMap (fun x => x / tn.2) tn.1)

deriving instance DecidableEq for Except

/-- A partial_dict key the validation of vhf_from_pvhf rejects: it does not
split on the dash into exactly two tokens, or a token is no element symbol of
the trajectory. -/
def badKey (atoms : List String) (k : String) : Prop :=
  (splitDash k).length ≠ 2 ∨ ∃ t ∈ splitDash k, t ∉ atoms

instance (atoms : List String) (k : String) : Decidable (badKey atoms k) := by
  unfold badKey
  infer_instance

/-- The outcome is one of the two documented ValueError kinds. -/
def isValueError (e : Except VhfError (List (List ℚ))) : Prop :=
  e = .error .valueKeyFormat ∨ e = .error .valueUnknownAtom

instance (e : Except VhfError (List (List ℚ))) : Decidable (isValueError e) := by
  unfold isValueError
  infer_instance

theorem vhfLoop_cons_good (ff : String → ℚ) (trj : Traj) (atoms : List String)
    (key : String) (mat : List (List ℚ)) (rest : List (String × List (List ℚ)))
    (tot : List (List ℚ)) (norm : ℚ) (h : ¬ badKey atoms key) :
    ∃ tot' norm', vhfLoop ff trj atoms ((key, mat) :: rest) tot norm
      = vhfLoop ff trj atoms rest tot' norm' := by
  rw [badKey] at h
  push_neg at h
  obtain ⟨hlen, hmem⟩ := h
  obtain ⟨a1, a2, hsplit⟩ := List.length_eq_two.mp hlen
  have h1 : a1 ∈ atoms := hmem a1 (hsplit ▸ by simp)
  have h2 : a2 ∈ atoms := hmem a2 (hsplit ▸ by simp)
  refine ⟨matAdd tot (matScale (ff a1 * ff a2
      * ((countName trj a1 : ℚ) / (trj.atoms.length : ℚ))
      * ((countName trj a2 : ℚ) / (trj.atoms.length : ℚ))) mat),
    norm + ff a1 * ff a2
      * ((countName trj a1 : ℚ) / (trj.atoms.length : ℚ))
      * ((countName trj a2 : ℚ) / (trj.atoms.length : ℚ)), ?_⟩
  simp only [vhfLoop, hsplit, if_pos h1, if_pos h2]

theorem vhfLoop_cons_bad (ff : String → ℚ) (trj : Traj) (atoms : List String)
    (key : String) (mat : List (List ℚ)) (rest : List (String × List (List ℚ)))
    (tot : List (List ℚ)) (norm : ℚ) (h : badKey atoms key) :
    vhfLoop ff trj atoms ((key, mat) :: rest) tot norm = .error .valueKeyFormat ∨
    vhfLoop ff trj atoms ((key, mat) :: rest) tot norm = .error .valueUnknownAtom := by
  match hsplit : splitDash key with
  | [] => left; simp only [vhfLoop, hsplit]
  | [a] => left; simp only [vhfLoop, hsplit]
  | a :: b :: c :: cs => left; simp only [vhfLoop, hsplit]
  | [a1, a2] =>
    rcases h with hlen | ⟨t, ht, htn⟩
    · rw [hsplit] at hlen; simp at hlen
    · rw [hsplit] at ht
      by_cases h1 : a1 ∈ atoms
      · have h2 : a2 ∉ atoms := by
          rcases List.mem_cons.mp ht with rfl | ht2
          · exact absurd h1 htn
          · rcases List.mem_cons.mp ht2 with rfl | ht3
            · exact htn
            · simp at ht3
        right
        simp only [vhfLoop, hsplit, if_pos h1, if_neg h2]
      · right
        simp only [vhfLoop, hsplit, if_neg h1]

theorem vhfLoop_ok_of_goodKeys (ff : String → ℚ) (trj : Traj) (atoms : List String) :
    ∀ (pd : List (String × List (List ℚ))) (tot : List (List ℚ)) (norm : ℚ),
      (∀ k ∈ pd.map Prod.fst, ¬ badKey atoms k) →
      ∃ out, vhfLoop ff trj atoms pd tot norm = .ok out := by
  intro pd
  induction pd with
  | nil => exact fun tot norm _ => ⟨(tot, norm), rfl⟩
  | cons kv rest ih =>
    intro tot norm h
    obtain ⟨key, mat⟩ := kv
    obtain ⟨tot', norm', hstep⟩ := vhfLoop_cons_good ff trj atoms key mat rest tot norm
      (h key (by simp))
    rw [hstep]
    exact ih tot' norm' fun k hk => h k (by simp [hk])

theorem vhfLoop_error_of_badKey (ff : String → ℚ) (trj : Traj) (atoms : List String) :
    ∀ (pd : List (String × List (List ℚ))) (tot : List (List ℚ)) (norm : ℚ),
      (∃ k ∈ pd.map Prod.fst, badKey atoms k) →
      vhfLoop ff trj atoms pd tot norm = .error .valueKeyFormat ∨
      vhfLoop ff trj atoms pd tot norm = .error .valueUnknownAtom := by
  intro pd
  induction pd with
  | nil => intro tot norm h; simp at h
  | cons kv rest ih =>
    intro tot norm h
    obtain ⟨key, mat⟩ := kv
    by_cases hbad : badKey atoms key
    · exact vhfLoop_cons_bad ff trj atoms key mat rest tot norm hbad
    · obtain ⟨tot', norm', hstep⟩ :=
        vhfLoop_cons_good ff trj atoms key mat rest tot norm hbad
      rw [hstep]
      apply ih
      rcases h with ⟨k, hk, hbk⟩
      simp only [List.map_cons, List.mem_cons] at hk
      rcases hk with rfl | hk2
      · exact absurd hbk hbad
      · exact ⟨k, hk2, hbk⟩

/-- C6 amended: provided partial_dict contains the self-pair key of the
trajectory's first atom (the key indexed before any validation), a key that
does not split into exactly two tokens, or whose token is not an element
symbol of the trajectory, makes vhf_from_pvhf raise the documented
ValueError; when every key is well formed with known elements, no ValueError
is raised and a mixed total is returned.  Without that self-pair key a
KeyError preempts the ValueError. -/
theorem C6_amended (ff : String → ℚ) (trj : Traj)
    (pd : List (String × List (List ℚ))) (a0 : String) (rest : List String)
    (hatoms : trj.atoms.map Atom.symbol = a0 :: rest)
    (hk0 : lookupKey pd (a0 ++ "-" ++ a0) ≠ none) :
    ((∃ k ∈ pd.map Prod.fst, badKey (a0 :: rest) k) →
      isValueError (vhf_from_pvhf ff trj pd)) ∧
    ((∀ k ∈ pd.map Prod.fst, ¬ badKey (a0 :: rest) k) →
      ∃ m, vhf_from_pvhf ff trj pd = .ok m) := by
  match hlk : lookupKey pd (a0 ++ "-" ++ a0) with
  | none => exact absurd hlk hk0
  | some m0 =>
    constructor
    · intro hbad
      rcases vhfLoop_error_of_badKey ff trj (a0 :: rest) pd (matZeroLike m0) 0 hbad with
        he | he
      · left
        rw [vhf_from_pvhf, hatoms]
        simp only [hlk, he]
      · right
        rw [vhf_from_pvhf, hatoms]
        simp only [hlk, he]
    · intro hgood
      obtain ⟨out, hout⟩ :=
        vhfLoop_ok_of_goodKeys ff trj (a0 :: rest) pd (matZeroLike m0) 0 hgood
      refine ⟨matMap (fun x => x / out.2) out.1, ?_⟩
      rw [vhf_from_pvhf, hatoms]
      simp only [hlk, hout]

/-- Three-atom water topology: one O first, then two H. -/
def waterTrj : Traj :=
  { atoms := [⟨"O", "O1", 16⟩, ⟨"H", "H2", 1⟩, ⟨"H", "H3", 1⟩],
    times := [0, 1], volumes := [1, 1] }

/-- Dictionary with the required O-O self-pair key and one key holding an
unknown element token. -/
def pdBad : List (String × List (List ℚ)) :=
  [("O-O", [[1]]), ("Xx-H", [[1]])]

theorem C6_amended_witness :
    lookupKey pdBad ("O" ++ "-" ++ "O") ≠ none ∧
    isValueError (vhf_from_pvhf (fun _ => 1) waterTrj pdBad) :=
  ⟨by decide,
    (C6_amended (fun _ => 1) waterTrj pdBad "O" ["H", "H"] (by rfl) (by decide)).1
      ⟨"Xx-H", by decide, by decide⟩⟩

/-- C6 counterexample: on the water trajectory, a dictionary whose only key
is the malformed O-O-O does not produce the documented ValueError: the
lookup of the O-O self-pair key happens first and fails with a KeyError. -/
theorem C6_counterexample :
    vhf_from_pvhf (fun _ => 1) waterTrj [("O-O-O", [[1]])] = .error (.keyError "O-O") ∧
    ¬ isValueError (vhf_from_pvhf (fun _ => 1) waterTrj [("O-O-O", [[1]])]) := by
  constructor
  · decide
  · decide

/-- C10: vhf_from_pvhf indexes partial_dict with the self-pair key of the
trajectory's first atom before validating any key: on water with the single
well-formed known-element key O-H, the call fails with the KeyError for O-O
rather than returning a total or raising the documented ValueError. -/
theorem C10_self_pair_key_precondition :
    vhf_from_pvhf (fun _ => 1) waterTrj [("O-H", [[1]])] = .error (.keyError "O-O") ∧
    (∀ k ∈ [("O-H", ([[1]] : List (List ℚ)))].map Prod.fst,
      ¬ badKey (waterTrj.atoms.map Atom.symbol) k) := by
  constructor
  · decide
  · decide

/-! ## The log-spaced Q axis (scattering.py line 78)

numpy.logspace(log10(Q0), log10(Q1), num=n_points) is embedded over the
reals: entry i is 10 raised to log10(Q0) + i * (log10(Q1) - log10(Q0)) /
(n_points - 1), the float rounding of the source idealized away. -/

noncomputable def logspaceF (a b : ℝ) (n : ℕ) (i : ℕ) : ℝ :=
  (10 : ℝ) ^ (Real.logb 10 a + (i : ℝ) * ((Real.logb 10 b - Real.logb 10 a) / ((n - 1 : ℕ) : ℝ)))

noncomputable def logspace (a b : ℝ) (n : ℕ) : List ℝ :=
  (List.range n).map (logspaceF a b n)

theorem logspaceF_succ (a b : ℝ) (n : ℕ) (i : ℕ) :
    logspaceF a b n (i + 1)
      = logspaceF a b n i
        * (10 : ℝ) ^ ((Real.logb 10 b - Real.logb 10 a) / ((n - 1 : ℕ) : ℝ)) := by
  unfold logspaceF
  rw [← Real.rpow_add (by norm_num : (0 : ℝ) < 10)]
  congr 1
  push_cast
  ring

theorem logspaceF_pos (a b : ℝ) (n : ℕ) (i : ℕ) : 0 < logspaceF a b n i :=
  Real.rpow_pos_of_pos (by norm_num) _

/-- C8 amended: for 0 < Q0 < Q1 and n_points at least 2, the Q axis has
length n_points, starts at Q0, ends at Q1, is strictly increasing, and has a
constant ratio between consecutive entries; n_points = 1 is excluded, since
numpy.logspace then returns the single entry Q0, which is not Q1. -/
theorem C8_logspace (a b : ℝ) (n : ℕ) (ha : 0 < a) (hab : a < b) (hn : 2 ≤ n) :
    (logspace a b n).length = n ∧
    (logspace a b n).head? = some a ∧
    (logspace a b n).getLast? = some b ∧
    List.Pairwise (· < ·) (logspace a b n) ∧
    (∀ i : ℕ, logspaceF a b n (i + 1) / logspaceF a b n i
      = logspaceF a b n 1 / logspaceF a b n 0) := by
  have hb : 0 < b := lt_trans ha hab
  have hlogb : Real.logb 10 a < Real.logb 10 b :=
    Real.logb_lt_logb (by norm_num) ha hab
  have hn1 : (0 : ℝ) < ((n - 1 : ℕ) : ℝ) := by
    have : 1 ≤ n - 1 := by omega
    exact_mod_cast Nat.lt_of_lt_of_le Nat.zero_lt_one this
  have hdelta : 0 < (Real.logb 10 b - Real.logb 10 a) / ((n - 1 : ℕ) : ℝ) :=
    div_pos (sub_pos.mpr hlogb) hn1
  have hratio : 1 < (10 : ℝ) ^ ((Real.logb 10 b - Real.logb 10 a) / ((n - 1 : ℕ) : ℝ)) :=
    (Real.one_lt_rpow_iff_of_pos (by norm_num)).mpr (Or.inl ⟨by norm_num, hdelta⟩)
  have hmono : ∀ i j : ℕ, i < j → logspaceF a b n i < logspaceF a b n j := by
    intro i j hij
    unfold logspaceF
    rw [Real.rpow_lt_rpow_left_iff (by norm_num : (1 : ℝ) < 10)]
    have hcast : (i : ℝ) < (j : ℝ) := Nat.cast_lt.mpr hij
    have := mul_lt_mul_of_pos_right hcast hdelta
    linarith
  refine ⟨by simp [logspace], ?_, ?_, ?_, ?_⟩
  · obtain ⟨m, rfl⟩ : ∃ m, n = m + 1 := ⟨n - 1, by omega⟩
    rw [logspace, List.range_succ_eq_map, List.map_cons, List.head?_cons]
    have h0 : logspaceF a b (m + 1) 0 = a := by
      unfold logspaceF
      rw [Nat.cast_zero, zero_mul, add_zero]
      exact Real.rpow_logb (by norm_num) (by norm_num) ha
    rw [h0]
  · obtain ⟨m, rfl⟩ : ∃ m, n = m + 1 := ⟨n - 1, by omega⟩
    rw [logspace, List.range_succ, List.map_append, List.map_cons, List.map_nil,
      List.getLast?_concat]
    have hm : logspaceF a b (m + 1) m = b := by
      unfold logspaceF
      have hm1 : ((m + 1 - 1 : ℕ) : ℝ) = (m : ℝ) := by norm_num
      rw [hm1]
      have hmne : (m : ℝ) ≠ 0 := by
        have : 1 ≤ m := by omega
        exact_mod_cast Nat.one_le_iff_ne_zero.mp this
      rw [mul_comm, div_mul_cancel₀ _ hmne, add_sub_cancel]
      exact Real.rpow_logb (by norm_num) (by norm_num) hb
    rw [hm]
  · rw [logspace, List.pairwise_map]
    exact (List.pairwise_lt_range n).imp (fun hij => hmono _ _ hij)
  · intro i
    have hpos0 : logspaceF a b n 0 ≠ 0 := ne_of_gt (logspaceF_pos a b n 0)
    have hposi : logspaceF a b n i ≠ 0 := ne_of_gt (logspaceF_pos a b n i)
    rw [logspaceF_succ a b n i, mul_div_cancel_left₀ _ hposi]
    have h1 : logspaceF a b n (0 + 1) = logspaceF a b n 0
        * (10 : ℝ) ^ ((Real.logb 10 b - Real.logb 10 a) / ((n - 1 : ℕ) : ℝ)) :=
      logspaceF_succ a b n 0
    rw [show (1 : ℕ) = 0 + 1 from rfl, h1, mul_div_cancel_left₀ _ hpos0]

theorem C8_logspace_witness :
    (0 : ℝ) < 1 ∧ (1 : ℝ) < 10 ∧ 2 ≤ 2 ∧
    ((logspace 1 10 2).length = 2 ∧
      (logspace 1 10 2).head? = some 1 ∧
      (logspace 1 10 2).getLast? = some 10 ∧
      List.Pairwise (· < ·) (logspace 1 10 2) ∧
      (∀ i : ℕ, logspaceF 1 10 2 (i + 1) / logspaceF 1 10 2 i
        = logspaceF 1 10 2 1 / logspaceF 1 10 2 0)) :=
  ⟨one_pos, by norm_num, le_refl 2, C8_logspace 1 10 2 one_pos (by norm_num) (le_refl 2)⟩

/-- C8 counterexample: with n_points = 1 the Q axis is the single entry Q0,
so its last element is Q_range[0], not Q_range[1]: on Q_range (0.5, 200) the
axis ends at 0.5. -/
theorem C8_counterexample :
    (logspace 0.5 200 1).getLast? = some 0.5 ∧ (0.5 : ℝ) ≠ 200 := by
  constructor
  · rw [logspace, show List.range 1 = [0] from rfl, List.map_cons, List.map_nil]
    have h0 : logspaceF 0.5 200 1 0 = 0.5 := by
      unfold logspaceF
      rw [Nat.cast_zero, zero_mul, add_zero]
      exact Real.rpow_logb (by norm_num) (by norm_num) (by norm_num)
    rw [h0]
    rfl
  · norm_num

/-! ## structure_factor (scattering.py lines 16 to 131)

The externals are an oracle record: ff stands for get_form_factor(symbol, q,
method) and integralOf for the scipy simps integral of
r squared times (g_r - 1) times sin(q r) / (q r) over the radial axis of the
(e1, e2) pair RDF at wavevector q (the RDF itself, its caching across the Q
loop, and the quadrature are collaborators the source only calls).  The form
factors are evaluated at q / 10, the unit conversion of the source. -/

/-- The single error structure_factor raises: a weighting_factor other than
fz (scattering.py lines 60 to 66), checked before any computation. -/
inductive SFError
  | unsupportedWeighting (weighting_factor : String)
deriving DecidableEq

structure SFOracles where
  ff : String → ℝ → ℝ
  integralOf : String → String → ℝ → ℝ

/-- Bulk density rho = mean over frames of n_atoms / unitcell_volume
(scattering.py line 68). -/
noncomputable def sf_rho (trj : Traj) : ℝ :=
  ((trj.volumes.map (fun v => (trj.atoms.length : ℝ) / (v : ℝ))).sum)
    / (trj.volumes.length : ℝ)

/-- Partial structure factor of one ordered pair at one wavevector:
integral * 4 pi rho + 1 (scattering.py lines 127 and 128). -/
noncomputable def partial_sq (o : SFOracles) (trj : Traj) (e1 e2 : String) (q : ℝ) : ℝ :=
  o.integralOf e1 e2 q * (4 * Real.pi * sf_rho trj) + 1

/-- Composition of one element: matching atoms over all atoms
(scattering.py lines 82 to 84). -/
noncomputable def composition (trj : Traj) (e : String) : ℝ :=
  (countElem trj e : ℝ) / (trj.atoms.length : ℝ)

/-- One entry of S: the Faber-Ziman weighted sum over the full ordered
element cross-product divided by the squared composition-weighted form-factor
sum (scattering.py lines 89 to 130). -/
noncomputable def sf_S_at (o : SFOracles) (trj : Traj) (q : ℝ) : ℝ :=
  (((sfPairs trj).map (fun pr =>
      composition trj pr.1 * o.ff pr.1 (q / 10) * composition trj pr.2 * o.ff pr.2 (q / 10)
        * partial_sq o trj pr.1 pr.2 q)).sum)
    / (((sfElements trj).map (fun e => composition trj e * o.ff e (q / 10))).sum) ^ 2

/-- Embedding of structure_factor: validate the weighting factor first, then
return the log-spaced Q axis and S evaluated at each Q. -/
noncomputable def structure_factor (o : SFOracles) (trj : Traj) (Q_range : ℝ × ℝ)
    (n_points : ℕ) (weighting_factor : String) : Except SFError (List ℝ × List ℝ) :=
  if weighting_factor ∉ ["fz"] then .error (.unsupportedWeighting weighting_factor)
  else
    .ok (logspace Q_range.1 Q_range.2 n_points,
      (logspace Q_range.1 Q_range.2 n_points).map (sf_S_at o trj))

/-- C4: any weighting_factor other than fz makes structure_factor fail with
the unsupported-weighting error, and the outcome is then independent of every
other argument (the check precedes all computation, scattering.py line 60
before line 68); with fz no such error is raised. -/
theorem C4_weighting_validation (o : SFOracles) (trj : Traj) (Q_range : ℝ × ℝ)
    (n_points : ℕ) (weighting_factor : String) :
    (weighting_factor ≠ "fz" →
      structure_factor o trj Q_range n_points weighting_factor
        = .error (.unsupportedWeighting weighting_factor) ∧
      ∀ (o' : SFOracles) (trj' : Traj) (Q_range' : ℝ × ℝ) (n' : ℕ),
        structure_factor o trj Q_range n_points weighting_factor
          = structure_factor o' trj' Q_range' n' weighting_factor) ∧
    (weighting_factor = "fz" →
      ∃ out, structure_factor o trj Q_range n_points weighting_factor = .ok out) := by
  constructor
  · intro hne
    have herr : ∀ (o' : SFOracles) (trj' : Traj) (Q_range' : ℝ × ℝ) (n' : ℕ),
        structure_factor o' trj' Q_range' n' weighting_factor
          = .error (.unsupportedWeighting weighting_factor) := by
      intro o' trj' qr' n'
      unfold structure_factor
      rw [if_pos (by simp [hne])]
    exact ⟨herr o trj Q_range n_points, fun o' trj' qr' n' => by
      rw [herr o trj Q_range n_points, herr o' trj' qr' n']⟩
  · intro heq
    subst heq
    refine ⟨(logspace Q_range.1 Q_range.2 n_points,
      (logspace Q_range.1 Q_range.2 n_points).map (sf_S_at o trj)), ?_⟩
    unfold structure_factor
    rw [if_neg (by simp)]

noncomputable def sfOraclesOne : SFOracles :=
  { ff := fun _ _ => 1, integralOf := fun _ _ _ => 0 }

theorem C4_weighting_validation_witness :
    ("xx" : String) ≠ "fz" ∧
    structure_factor sfOraclesOne trjCO (1, 2) 3 "xx"
      = .error (.unsupportedWeighting "xx") :=
  ⟨by decide, ((C4_weighting_validation sfOraclesOne trjCO (1, 2) 3 "xx").1 (by decide)).1⟩

/-! ## Helper lemmas for the single-element mixing identity -/

theorem dedup_const {α : Type} [DecidableEq α] {e : α} :
    ∀ {l : List α}, l ≠ [] → (∀ x ∈ l, x = e) → l.dedup = [e] := by
  intro l
  induction l with
  | nil => intro h; exact absurd rfl h
  | cons a t ih =>
    intro _ h
    have ha : a = e := h a (List.mem_cons_self a t)
    by_cases hT : t = []
    · subst hT; subst ha; simp
    · have ht : t.dedup = [e] := ih hT fun x hx => h x (List.mem_cons_of_mem a hx)
      have hmem : a ∈ t := by
        rcases List.exists_mem_of_ne_nil t hT with ⟨y, hy⟩
        have hy2 : y = e := h y (List.mem_cons_of_mem a hy)
        rw [ha, ← hy2]
        exact hy
      rw [List.dedup_cons_of_mem hmem, ht]

theorem matAdd_length (m1 m2 : List (List ℚ)) :
    (matAdd m1 m2).length = min m1.length m2.length := by
  simp [matAdd]

theorem matMap_length (f : ℚ → ℚ) (m : List (List ℚ)) :
    (matMap f m).length = m.length := by
  simp [matMap]

theorem foldl_matAdd_length (L : ℕ) :
    ∀ (ms : List (List (List ℚ))) (acc : List (List ℚ)), acc.length = L →
      (∀ m ∈ ms, m.length = L) → (ms.foldl matAdd acc).length = L := by
  intro ms
  induction ms with
  | nil => intro acc h _; exact h
  | cons m ms ih =>
    intro acc h hall
    rw [List.foldl_cons]
    refine ih _ ?_ (fun x hx => hall x (by simp [hx]))
    rw [matAdd_length, h, hall m (by simp)]
    simp

theorem everyNthAux_nil_of_le {α : Type} (step : ℕ) :
    ∀ (l : List α) (c : ℕ), l.length ≤ c → everyNthAux step l c = [] := by
  intro l
  induction l with
  | nil => intro c _; cases c <;> rfl
  | cons x xs ih =>
    intro c hc
    cases c with
    | zero => simp at hc
    | succ n => exact ih n (by simpa using hc)

theorem sliceStep_eq_getD {α : Type} (d : α) (l : List α) (L i : ℕ)
    (hL : l.length = L) (hi : i < L) : sliceStep l i L = [l.getD i d] := by
  have hi' : i < l.length := hL ▸ hi
  rw [sliceStep, List.drop_eq_getElem_cons hi', everyNthAux,
    everyNthAux_nil_of_le L (l.drop (i + 1)) (L - 1) (by simp [List.length_drop]; omega),
    List.getD_eq_getElem l d hi']

theorem meanCols_singleton (r : List ℚ) : meanCols [r] = r := by
  simp [meanCols, sumCols]

theorem vanHoveReshape_eq_self (L : ℕ) (m : List (List ℚ)) (hm : m.length = L) :
    vanHoveReshape L m = m := by
  apply List.ext_getElem
  · simp [vanHoveReshape, hm]
  · intro i h1 h2
    have hiL : i < L := by simpa [vanHoveReshape] using h1
    unfold vanHoveReshape
    rw [List.getElem_map, List.getElem_range, sliceStep_eq_getD [] m L i hm hiL,
      meanCols_singleton, List.getD_eq_getElem m [] h2]

theorem zipWith_add_zero_map (r : List ℚ) (f : ℚ → ℚ) :
    List.zipWith (· + ·) (r.map fun _ => (0 : ℚ)) (r.map f) = r.map f := by
  induction r with
  | nil => rfl
  | cons x xs ih => simp only [List.map_cons, List.zipWith_cons_cons, ih, zero_add]

theorem matAdd_zeroLike_matMap (f : ℚ → ℚ) (m : List (List ℚ)) :
    matAdd (matZeroLike m) (matMap f m) = matMap f m := by
  induction m with
  | nil => rfl
  | cons r rs ih =>
    simp only [matAdd, matZeroLike, matMap, List.map_cons, List.zipWith_cons_cons] at *
    rw [zipWith_add_zero_map r f]
    exact congrArg _ ih

theorem matMap_matMap (f g : ℚ → ℚ) (m : List (List ℚ)) :
    matMap g (matMap f m) = matMap (fun x => g (f x)) m := by
  simp [matMap, List.map_map, Function.comp_def]

theorem matMap_div_matScale (c : ℚ) (hc : c ≠ 0) (m : List (List ℚ)) :
    matMap (fun x => x / c) (matScale c m) = m := by
  rw [matScale, matMap_matMap]
  have hfun : (fun x : ℚ => x * c / c) = fun x : ℚ => x := by
    funext x
    exact mul_div_cancel_right₀ x hc
  rw [hfun]
  simp [matMap]

theorem elementsOfSelection_le_one (trj : Traj) (sel : List ℕ) (e : String)
    (hall : ∀ a ∈ trj.atoms, a.symbol = e) :
    (elementsOfSelection trj sel).length ≤ 1 := by
  apply dedup_length_le_one_of_allEq
  intro x hx y hy
  rcases List.mem_map.mp hx with ⟨a, ha, rfl⟩
  rcases List.mem_map.mp hy with ⟨b, hb2, rfl⟩
  rcases List.mem_filterMap.mp ha with ⟨i, _, hgi⟩
  rcases List.mem_filterMap.mp hb2 with ⟨j, _, hgj⟩
  rw [hall a (List.get?_mem hgi), hall b (List.get?_mem hgj)]

theorem compute_rdf_t_length (hist : ℕ → ℕ → List ℚ) (L i : ℕ) :
    (compute_rdf_t hist (chunkTimes L i)).length = L := by
  simp [compute_rdf_t, chunkTimes]

theorem compute_partial_van_hove_ok (trj : Traj) (hist : ℕ → ℕ → List ℚ)
    (chunk_length : ℕ) (sel1 sel2 : List ℕ)
    (h1 : ¬(1 < (elementsOfSelection trj sel1).length ∨
      1 < (elementsOfSelection trj sel2).length))
    (hdt : ∃ d, get_dt trj.times = .ok d)
    (hchunk : chunk_length ≠ 0) (hn : 1 ≤ trj.times.length / chunk_length) :
    ∃ pm, compute_partial_van_hove trj hist chunk_length sel1 sel2 = .ok pm ∧
      pm.length = chunk_length := by
  obtain ⟨d, hd⟩ := hdt
  unfold compute_partial_van_hove
  rw [if_neg h1, hd, if_neg hchunk]
  match hmats : (List.range (trj.times.length / chunk_length)).map
      (fun i => compute_rdf_t hist (chunkTimes chunk_length i)) with
  | [] =>
    exfalso
    have hlen := congrArg List.length hmats
    simp at hlen
    omega
  | m :: ms =>
    refine ⟨_, rfl, ?_⟩
    have hm_len : ∀ x ∈ m :: ms, x.length = chunk_length := by
      intro x hx
      rw [← hmats] at hx
      rcases List.mem_map.mp hx with ⟨i, _, rfl⟩
      exact compute_rdf_t_length hist chunk_length i
    refine foldl_matAdd_length chunk_length ms _ ?_
      (fun x hx => hm_len x (List.mem_cons_of_mem m hx))
    rw [matAdd_length]
    have hm1 : m.length = chunk_length := hm_len m (List.mem_cons_self m ms)
    rw [matZeroLike, matMap_length, hm1]
    simp

theorem uniqueElements_single (trj : Traj) (e : String) (hne : trj.atoms ≠ [])
    (hall : ∀ a ∈ trj.atoms, a.symbol = e ∧ 0 < a.mass) :
    uniqueElements trj = [e] := by
  unfold uniqueElements
  have hfilter : trj.atoms.filter (fun a => decide (0 < a.mass)) = trj.atoms :=
    List.filter_eq_self.mpr fun a ha => by simp [(hall a ha).2]
  rw [hfilter]
  apply dedup_const
  · intro hmap
    exact hne (List.map_eq_nil_iff.mp hmap)
  · intro x hx
    rcases List.mem_map.mp hx with ⟨a, ha, rfl⟩
    exact (hall a ha).1

theorem sfElements_single (trj : Traj) (e : String) (hne : trj.atoms ≠ [])
    (hall : ∀ a ∈ trj.atoms, a.symbol = e) :
    sfElements trj = [e] := by
  unfold sfElements
  apply dedup_const
  · intro hmap
    exact hne (List.map_eq_nil_iff.mp hmap)
  · intro x hx
    rcases List.mem_map.mp hx with ⟨a, ha, rfl⟩
    exact hall a ha

theorem countElem_all (trj : Traj) (e : String) (hall : ∀ a ∈ trj.atoms, a.symbol = e) :
    countElem trj e = trj.atoms.length := by
  unfold countElem
  rw [List.filter_eq_self.mpr fun a ha => by simp [hall a ha]]

theorem nPhysical_all (trj : Traj) (hall : ∀ a ∈ trj.atoms, 0 < a.mass) :
    nPhysical trj = trj.atoms.length := by
  unfold nPhysical
  rw [List.filter_eq_self.mpr fun a ha => by simp [hall a ha]]

theorem composition_single (trj : Traj) (e : String) (hne : trj.atoms ≠ [])
    (hall : ∀ a ∈ trj.atoms, a.symbol = e) :
    composition trj e = 1 := by
  unfold composition
  rw [countElem_all trj e hall]
  have hlen : (trj.atoms.length : ℝ) ≠ 0 := by
    have : trj.atoms.length ≠ 0 := fun hc => hne (List.length_eq_zero.mp hc)
    exact_mod_cast this
  exact div_self hlen

theorem conc_single (trj : Traj) (e : String) (hne : trj.atoms ≠ [])
    (hall : ∀ a ∈ trj.atoms, a.symbol = e ∧ 0 < a.mass) :
    conc trj e = 1 := by
  unfold conc
  rw [countElem_all trj e (fun a ha => (hall a ha).1),
    nPhysical_all trj (fun a ha => (hall a ha).2)]
  have hlen : (trj.atoms.length : ℚ) ≠ 0 := by
    have : trj.atoms.length ≠ 0 := fun hc => hne (List.length_eq_zero.mp hc)
    exact_mod_cast this
  exact div_self hlen

theorem sf_S_at_single (o : SFOracles) (trj : Traj) (e : String) (q : ℝ)
    (hsf : sfElements trj = [e]) (hcomp : composition trj e = 1)
    (hff : o.ff e (q / 10) ≠ 0) :
    sf_S_at o trj q = partial_sq o trj e e q := by
  unfold sf_S_at sfPairs
  rw [hsf]
  simp only [product2, List.flatMap_cons, List.map_cons, List.map_nil, List.flatMap_nil,
    List.append_nil, List.sum_cons, List.sum_nil, add_zero, hcomp, one_mul]
  field_simp
  ring

/-- C3: a trajectory of exactly one chemical element (all atoms of positive
mass and the same symbol) reduces both mixings to the identity.  The
structure factor S equals the single pair's partial_sq at every Q of the
grid, and compute_van_hove returns exactly the reshaped self-pair partial van
Hove function: the coefficient x * f * x * f with x = 1 cancels against the
normalization, provided the form factor is nonzero (the spec's nonzero-norm
invariant).  The van Hove side also assumes the preconditions of a successful
run: a consistent timestep and 0 < chunk_length <= n_frames. -/
theorem C3_single_element (o : SFOracles) (trj : Traj) (e : String) (Q_range : ℝ × ℝ)
    (n_points : ℕ) (ffq0 : String → ℚ) (hist : String × String → ℕ → ℕ → List ℚ)
    (chunk_length : ℕ)
    (hne : trj.atoms ≠ [])
    (hall : ∀ a ∈ trj.atoms, a.symbol = e ∧ 0 < a.mass)
    (hffR : ∀ q : ℝ, o.ff e q ≠ 0)
    (hffq : ffq0 e ≠ 0)
    (hdt : ∃ d, get_dt trj.times = .ok d)
    (hchunk : 0 < chunk_length) (hLn : chunk_length ≤ trj.times.length) :
    structure_factor o trj Q_range n_points "fz"
      = .ok (logspace Q_range.1 Q_range.2 n_points,
          (logspace Q_range.1 Q_range.2 n_points).map (partial_sq o trj e e)) ∧
    ∃ pm, compute_partial_van_hove trj (hist (e, e)) chunk_length
        (selectElement trj e) (selectElement trj e) = .ok pm ∧
      compute_van_hove trj hist ffq0 chunk_length
        = .ok (trj.times.take chunk_length, vanHoveReshape chunk_length pm) := by
  have hallsym : ∀ a ∈ trj.atoms, a.symbol = e := fun a ha => (hall a ha).1
  constructor
  · unfold structure_factor
    rw [if_neg (by simp)]
    have hsf : sfElements trj = [e] := sfElements_single trj e hne hallsym
    have hcomp : composition trj e = 1 := composition_single trj e hne hallsym
    have hmap : (logspace Q_range.1 Q_range.2 n_points).map (sf_S_at o trj)
        = (logspace Q_range.1 Q_range.2 n_points).map (partial_sq o trj e e) :=
      List.map_congr_left fun q _ =>
        sf_S_at_single o trj e q hsf hcomp (hffR (q / 10))
    rw [hmap]
  · have hsel : ¬(1 < (elementsOfSelection trj (selectElement trj e)).length ∨
        1 < (elementsOfSelection trj (selectElement trj e)).length) := by
      have := elementsOfSelection_le_one trj (selectElement trj e) e hallsym
      omega
    obtain ⟨pm, hpm, hpmlen⟩ := compute_partial_van_hove_ok trj (hist (e, e)) chunk_length
      (selectElement trj e) (selectElement trj e) hsel hdt (Nat.pos_iff_ne_zero.mp hchunk)
      ((Nat.one_le_div_iff hchunk).mpr hLn)
    refine ⟨pm, hpm, ?_⟩
    have hpairs : vanHovePairs trj = [(e, e)] := by
      rw [vanHovePairs, uniqueElements_single trj e hne hall]
      rfl
    have hdict : buildDict trj hist chunk_length (vanHovePairs trj)
        = .ok [((e, e), pm)] := by
      rw [hpairs]
      simp only [buildDict, hpm]
    rw [compute_van_hove, hdict]
    have hconc : conc trj e = 1 := conc_single trj e hne hall
    simp only [mixLoop, hconc, mul_one]
    rw [show matScale (ffq0 e * ffq0 e) pm = matMap (fun x => x * (ffq0 e * ffq0 e)) pm
        from rfl,
      matAdd_zeroLike_matMap, zero_add]
    have hcoeff : ffq0 e * ffq0 e ≠ 0 := mul_ne_zero hffq hffq
    have hglen : (matMap (fun x => x * (ffq0 e * ffq0 e)) pm).length = chunk_length := by
      rw [matMap_length, hpmlen]
    rw [vanHoveReshape_eq_self chunk_length _ hglen,
      show matMap (fun x => x * (ffq0 e * ffq0 e)) pm
        = matScale (ffq0 e * ffq0 e) pm from rfl,
      matMap_div_matScale _ hcoeff, vanHoveReshape_eq_self chunk_length pm hpmlen]

/-- One-atom, one-element trajectory instantiating the single-element
identity: unit form factors, zero integrals, two frames of unit spacing. -/
theorem C3_single_element_witness :
    trjO.atoms ≠ [] ∧ (∀ a ∈ trjO.atoms, a.symbol = "O" ∧ 0 < a.mass) ∧
    (structure_factor sfOraclesOne trjO (1, 10) 2 "fz"
      = .ok (logspace 1 10 2, (logspace 1 10 2).map (partial_sq sfOraclesOne trjO "O" "O")) ∧
    ∃ pm, compute_partial_van_hove trjO ((fun _ _ _ => [1]) ((("O" : String), ("O" : String))))
        1 (selectElement trjO "O") (selectElement trjO "O") = .ok pm ∧
      compute_van_hove trjO (fun _ _ _ => [1]) (fun _ => 1) 1
        = .ok (trjO.times.take 1, vanHoveReshape 1 pm)) :=
  ⟨by decide, by decide,
    C3_single_element sfOraclesOne trjO "O" (1, 10) 2 (fun _ => 1) (fun _ _ _ => [1]) 1
      (by decide) (by decide) (fun q => one_ne_zero) (by decide)
      ⟨1, by norm_num [get_dt, trjO, diffs, np_round3, roundHalfEven]⟩
      (by decide) (by decide)⟩

end Scattering
